import Mathlib

/-!
Verification of the jellyfin-tag-ui item/tag query subsystem.

This file gives a shallow embedding, in Lean 4, of the pure core of the
repository (services/tags.py, services/items.py, services/items_cache.py,
jellyfin_client.py and the pagination engine of routes/items.py), and proves
or refutes the specification claims about it.

Modelling conventions:
* Python strings are modelled as lists of characters (PyStr).  casefold and
  lower are both modelled at the ASCII level as character-wise toLower, and
  str.strip trims the four common ASCII whitespace characters; the claims
  under scrutiny only involve ASCII data.
* Python dict / OrderedDict values are modelled as association lists kept in
  insertion order (head = oldest entry).
* The remote Jellyfin server is modelled as a pure function from
  (startIndex, limit) to a page payload; the ThreadPoolExecutor in
  routes/items.py only prefetches pages speculatively and pages are processed
  strictly in offset order, so the scan itself is deterministic and is
  embedded as a fuel-indexed recursive function.
-/

/-- Python strings are modelled as lists of characters. -/
abbrev PyStr := List Char

/-- Convenience conversion from Lean string literals to the PyStr model. -/
def pstr (s : String) : PyStr := s.toList

/-- ASCII model of Python str.lower: character-wise toLower. -/
def py_lower (s : PyStr) : PyStr := s.map Char.toLower

/-- ASCII model of Python str.casefold; identical to lower on ASCII data. -/
def py_casefold (s : PyStr) : PyStr := s.map Char.toLower

/-- Model of the whitespace characters stripped by Python str.strip(). -/
def py_is_space (c : Char) : Bool :=
  c = ' ' || c = '\t' || c = '\n' || c = '\r'

/-- Model of Python str.strip(): trim whitespace from both ends. -/
def py_strip (s : PyStr) : PyStr :=
  ((s.dropWhile py_is_space).reverse.dropWhile py_is_space).reverse

/-- Model of Python str.split(sep) for a single-character separator. -/
def py_split (sep : Char) : PyStr → List PyStr
  | [] => [[]]
  | c :: rest =>
    if c = sep then [] :: py_split sep rest
    else
      match py_split sep rest with
      | [] => [[c]]
      | p :: ps => (c :: p) :: ps

/-- Boolean test that the first list starts with the second list. -/
def str_starts_with : PyStr → PyStr → Bool
  | _, [] => true
  | [], _ :: _ => false
  | c :: s, d :: t => c = d && str_starts_with s t

/-- Model of Python substring containment (needle in haystack). -/
def str_contains : PyStr → PyStr → Bool
  | _, [] => true
  | [], _ :: _ => false
  | c :: s, d :: t => str_starts_with (c :: s) (d :: t) || str_contains s (d :: t)

/-- Strict lexicographic comparison of strings by code point, as in Python. -/
def str_lt : PyStr → PyStr → Bool
  | [], [] => false
  | [], _ :: _ => true
  | _ :: _, [] => false
  | c :: s, d :: t => if c = d then str_lt s t else decide (c < d)

/-- Non-strict lexicographic comparison of strings by code point. -/
def str_le : PyStr → PyStr → Bool
  | [], _ => true
  | _ :: _, [] => false
  | c :: s, d :: t => if c = d then str_le s t else decide (c < d)

/-- Stable insertion of an element into a list relative to a boolean order;
building block of the model of Python's stable sorted(). -/
def ins (le : α → α → Bool) (x : α) : List α → List α
  | [] => [x]
  | y :: ys => if le x y then x :: y :: ys else y :: ins le x ys

/-- Stable insertion sort, modelling Python sorted() with a key order. -/
def insort (le : α → α → Bool) : List α → List α
  | [] => []
  | x :: xs => ins le x (insort le xs)

/-! ### Configuration constants (config.py) -/

def AGGREGATE_FETCH_LIMIT : Nat := 1000
def ITEM_PAGE_FETCH_LIMIT : Nat := 200
def ITEM_QUERY_CACHE_TTL : Nat := 600
def ITEM_QUERY_CACHE_MAX_ENTRIES : Nat := 128
def ITEM_PREFETCH_JOB_TTL : Nat := 1800

/-! ### routes/items.py: _sanitize_limit

The route parses the JSON limit with int(); an unparsable value is modelled
as none, a parsed value as some n. -/

/-- Embedding of routes/items.py _sanitize_limit. -/
def sanitize_limit (value : Option Int) : Int :=
  let parsed : Int := match value with
    | some n => n
    | none => 50
  if parsed > (ITEM_PAGE_FETCH_LIMIT : Int) then (ITEM_PAGE_FETCH_LIMIT : Int)
  else if parsed < 0 then 0
  else parsed

/-! ### jellyfin_client.py: jf_put_with_fallback -/

/-- Outcome of one HTTP call attempt in jellyfin_client.py: success, a
requests.HTTPError whose attached response (if any) carries a status code,
or any other exception (which jf_put_with_fallback does not catch). -/
inductive HttpOutcome (α : Type) where
  | ok (payload : α)
  | httpError (status : Option Int)
  | otherError
  deriving DecidableEq, Repr

/-- HTTP verbs issued by jf_put_with_fallback. -/
inductive Verb where
  | put
  | post
  deriving DecidableEq, Repr

/-- Embedding of jellyfin_client.py _is_unsupported_method_error: true iff the
error carries a response whose status code is 405 or 501. -/
def is_unsupported_method_error : HttpOutcome α → Bool
  | .httpError (some s) => s = 405 || s = 501
  | _ => false

/-- Embedding of jellyfin_client.py jf_put_with_fallback.  The PUT and POST
attempts are modelled by their outcomes; the function returns the overall
outcome together with the list of verbs actually attempted, in order. -/
def jf_put_with_fallback (putResult postResult : HttpOutcome α) :
    HttpOutcome α × List Verb :=
  match putResult with
  | .ok p => (.ok p, [.put])
  | .httpError s =>
    if is_unsupported_method_error (.httpError s : HttpOutcome α) then
      (postResult, [.put, .post])
    else (.httpError s, [.put])
  | .otherError => (.otherError, [.put])

/-! ### Theorems for C10 and C7 -/

/-- C10: _sanitize_limit always returns an integer in the range 0..200
(= ITEM_PAGE_FETCH_LIMIT); an unparsable value yields 50, a parsed value
above 200 yields 200, a negative parsed value yields 0, and an in-range
value is returned unchanged. -/
theorem sanitize_limit_caps_at_item_page_fetch_limit :
    (∀ v, 0 ≤ sanitize_limit v ∧ sanitize_limit v ≤ 200) ∧
    sanitize_limit none = 50 ∧
    (∀ n : Int, 200 < n → sanitize_limit (some n) = 200) ∧
    (∀ n : Int, n < 0 → sanitize_limit (some n) = 0) ∧
    (∀ n : Int, 0 ≤ n → n ≤ 200 → sanitize_limit (some n) = n) := by
  refine ⟨fun v => ?_, rfl, fun n h => ?_, fun n h => ?_, fun n h0 h1 => ?_⟩
  · rcases v with _ | n <;> simp only [sanitize_limit, ITEM_PAGE_FETCH_LIMIT] <;>
      split <;> (try split) <;> omega
  · simp only [sanitize_limit, ITEM_PAGE_FETCH_LIMIT]
    split <;> (try split) <;> omega
  · simp only [sanitize_limit, ITEM_PAGE_FETCH_LIMIT]
    split <;> (try split) <;> omega
  · simp only [sanitize_limit, ITEM_PAGE_FETCH_LIMIT]
    split <;> (try split) <;> omega

/-- Witness for sanitize_limit_caps_at_item_page_fetch_limit at concrete
inputs 500, -3 and 120. -/
theorem sanitize_limit_caps_witness :
    sanitize_limit (some 500) = 200 ∧ sanitize_limit (some (-3)) = 0 ∧
    sanitize_limit (some 120) = 120 :=
  ⟨sanitize_limit_caps_at_item_page_fetch_limit.2.2.1 500 (by decide),
   sanitize_limit_caps_at_item_page_fetch_limit.2.2.2.1 (-3) (by decide),
   sanitize_limit_caps_at_item_page_fetch_limit.2.2.2.2 120 (by decide) (by decide)⟩

/-- C7: jf_put_with_fallback issues the PUT first; it issues the fallback
POST exactly when the PUT fails with an HTTP error whose response carries
status 405 or 501 (in which case the POST outcome is returned); every other
outcome of the PUT — success, an HTTP error with any other status, an HTTP
error without a response, or a non-HTTP error — is returned unchanged, and
the attempted-verb trace is always either just PUT or PUT then POST. -/
theorem jf_put_with_fallback_verb_fallback (α : Type) (putR postR : HttpOutcome α) :
    (jf_put_with_fallback putR postR).2 =
      (if is_unsupported_method_error putR then [Verb.put, Verb.post] else [Verb.put]) ∧
    (jf_put_with_fallback putR postR).1 =
      (if is_unsupported_method_error putR then postR else putR) ∧
    (is_unsupported_method_error putR = true ↔
      ∃ s : Int, putR = .httpError (some s) ∧ (s = 405 ∨ s = 501)) := by
  rcases putR with p | st | _
  · refine ⟨rfl, rfl, ?_⟩
    simp [is_unsupported_method_error]
  · rcases st with _ | s
    · refine ⟨rfl, rfl, ?_⟩
      simp [is_unsupported_method_error]
    · by_cases h : (s = 405 ∨ s = 501)
      · have hb : is_unsupported_method_error (.httpError (some s) : HttpOutcome α) = true := by
          simp [is_unsupported_method_error]
          omega
        refine ⟨?_, ?_, ?_⟩
        · simp [jf_put_with_fallback, hb]
        · simp [jf_put_with_fallback, hb]
        · simp [hb]
          exact h
      · have hb : is_unsupported_method_error (.httpError (some s) : HttpOutcome α) = false := by
          simp [is_unsupported_method_error]
          omega
        refine ⟨?_, ?_, ?_⟩
        · simp [jf_put_with_fallback, hb]
        · simp [jf_put_with_fallback, hb]
        · simp [hb]
          exact ⟨fun hc => h (Or.inl hc), fun hc => h (Or.inr hc)⟩
  · refine ⟨rfl, rfl, ?_⟩
    simp [is_unsupported_method_error]

/-! ### services/tags.py: normalize_tags, item_tags, sorted_tag_names -/

/-- Helper for the deterministic model of list(set(...)): exact
de-duplication keeping first occurrences, skipping anything in seen. -/
def dedup_first_aux (seen : List PyStr) : List PyStr → List PyStr
  | [] => []
  | x :: xs =>
    if x ∈ seen then dedup_first_aux seen xs
    else x :: dedup_first_aux (x :: seen) xs

/-- Deterministic model of Python list(set(l)): exact de-duplication.  CPython
set iteration order is unspecified (hash dependent); the first-occurrence
order chosen here is one admissible order, and every property proved about
normalize_tags output is either order-robust or about this fixed model. -/
def dedup_first (l : List PyStr) : List PyStr := dedup_first_aux [] l

/-- Model of the double split in normalize_tags: split on commas, then split
every part on semicolons. -/
def split_tags (s : PyStr) : List PyStr := (py_split ',' s).flatMap (py_split ';')

/-- Sort key order used by normalize_tags: sorted(..., key=str.lower). -/
def low_le (a b : PyStr) : Bool := str_le (py_lower a) (py_lower b)

/-- Embedding of services/tags.py normalize_tags: split the tag string on
commas and semicolons, strip parts, drop empties, de-duplicate exactly (a
Python set), and sort by lowercase key. -/
def normalize_tags (s : PyStr) : List PyStr :=
  if s = [] then []
  else
    let raw := (split_tags s).map py_strip
    insort low_le (dedup_first (raw.filter (fun t => ¬ t = [])))

/-- Model of Python ",".join. -/
def join_comma : List PyStr → PyStr
  | [] => []
  | [x] => x
  | x :: y :: rest => x ++ ',' :: join_comma (y :: rest)

/-- Remote item payload, with the fields read by the embedded subsystem.
TagItems entries are modelled by their optional Name field. -/
structure Item where
  id : PyStr := []
  type : PyStr := []
  name : Option PyStr := none
  sortName : Option PyStr := none
  path : PyStr := []
  tagItems : List (Option PyStr) := []
  tags : List PyStr := []
  inheritedTags : List PyStr := []
  premiereDate : Option PyStr := none
  productionYear : Option Int := none
  deriving DecidableEq, Repr

/-- One step of the _add closure in services/tags.py item_tags: state is
(names collected so far, casefolded keys seen so far). -/
def item_tags_add (st : List PyStr × List PyStr) (name : Option PyStr) :
    List PyStr × List PyStr :=
  match name with
  | none => st
  | some n =>
    let trimmed := py_strip n
    if trimmed = [] then st
    else
      let key := py_casefold trimmed
      if key ∈ st.2 then st else (st.1 ++ [trimmed], key :: st.2)

/-- Embedding of services/tags.py item_tags: merge TagItems names, Tags and
InheritedTags, trimming whitespace and de-duplicating case-insensitively
while preserving the first-seen casing. -/
def item_tags (it : Item) : List PyStr :=
  ((it.tagItems ++ it.tags.map some ++ it.inheritedTags.map some).foldl
    item_tags_add ([], [])).1

/-- Display-name resolution in _sorted_tag_names: canonical_names.get(key, key)
applied to every (key, count) pair of the tag_counts mapping (modelled as an
association list in mapping iteration order). -/
def display_pairs (tag_counts : List (PyStr × Int))
    (canonical_names : Option (List (PyStr × PyStr))) : List (PyStr × Int) :=
  tag_counts.map (fun kc =>
    (match canonical_names with
     | some cn =>
       match cn.find? (fun p => decide (p.1 = kc.1)) with
       | some p => p.2
       | none => kc.1
     | none => kc.1,
     kc.2))

/-- Boolean order corresponding to the sort key
(-count, name.casefold(), name) of _sorted_tag_names. -/
def tag_key_le (a b : PyStr × Int) : Bool :=
  if a.2 = b.2 then
    if py_casefold a.1 = py_casefold b.1 then str_le a.1 b.1
    else str_lt (py_casefold a.1) (py_casefold b.1)
  else decide (b.2 < a.2)

/-- Embedding of services/tags.py sorted_tag_names (and _sorted_tag_names):
resolve display names, sort by (-count, casefolded name, name), return the
names. -/
def sorted_tag_names (tag_counts : List (PyStr × Int))
    (canonical_names : Option (List (PyStr × PyStr))) : List PyStr :=
  (insort tag_key_le (display_pairs tag_counts canonical_names)).map Prod.fst

/-! ### Lemmas about the lexicographic string orders -/

theorem str_le_total : ∀ a b : PyStr, str_le a b = true ∨ str_le b a = true
  | [], _ => Or.inl rfl
  | _ :: _, [] => Or.inr rfl
  | c :: s, d :: t => by
    by_cases h : c = d
    · subst h
      rcases str_le_total s t with h1 | h1
      · exact Or.inl (by simp [str_le, h1])
      · exact Or.inr (by simp [str_le, h1])
    · rcases lt_trichotomy c d with hlt | heq | hgt
      · exact Or.inl (by simp [str_le, h, hlt])
      · exact absurd heq h
      · exact Or.inr (by simp [str_le, Ne.symm h, hgt])

theorem str_lt_irrefl : ∀ a : PyStr, str_lt a a = false
  | [] => rfl
  | c :: s => by simp [str_lt, str_lt_irrefl s]

theorem str_lt_trans :
    ∀ a b c : PyStr, str_lt a b = true → str_lt b c = true → str_lt a c = true
  | [], _ :: _, _ :: _, _, _ => rfl
  | c :: s, d :: t, e :: u, h1, h2 => by
    simp only [str_lt] at h1 h2 ⊢
    by_cases hcd : c = d <;> by_cases hde : d = e
    · subst hcd; subst hde
      simp only [if_pos rfl] at h1 h2 ⊢
      exact str_lt_trans s t u h1 h2
    · subst hcd
      simp only [if_neg hde] at h2 ⊢
      exact h2
    · subst hde
      simp only [if_neg hcd] at h1 ⊢
      exact h1
    · simp only [if_neg hcd, if_neg hde, decide_eq_true_eq] at h1 h2
      have : c < e := lt_trans h1 h2
      simp [if_neg (ne_of_lt this), this]

theorem str_trichotomy : ∀ a b : PyStr, a = b ∨ str_lt a b = true ∨ str_lt b a = true
  | [], [] => Or.inl rfl
  | [], _ :: _ => Or.inr (Or.inl rfl)
  | _ :: _, [] => Or.inr (Or.inr rfl)
  | c :: s, d :: t => by
    by_cases h : c = d
    · subst h
      rcases str_trichotomy s t with h1 | h1 | h1
      · exact Or.inl (by rw [h1])
      · exact Or.inr (Or.inl (by simp [str_lt, h1]))
      · exact Or.inr (Or.inr (by simp [str_lt, h1]))
    · rcases lt_trichotomy c d with hlt | heq | hgt
      · exact Or.inr (Or.inl (by simp [str_lt, h, hlt]))
      · exact absurd heq h
      · exact Or.inr (Or.inr (by simp [str_lt, Ne.symm h, hgt]))

theorem str_le_iff :
    ∀ a b : PyStr, str_le a b = true ↔ (str_lt a b = true ∨ a = b)
  | [], [] => by simp [str_le, str_lt]
  | [], _ :: _ => by simp [str_le, str_lt]
  | _ :: _, [] => by simp [str_le, str_lt]
  | c :: s, d :: t => by
    by_cases h : c = d
    · subst h
      have ih := str_le_iff s t
      simp [str_le, str_lt, ih]
    · simp [str_le, str_lt, h]

theorem str_le_trans :
    ∀ a b c : PyStr, str_le a b = true → str_le b c = true → str_le a c = true := by
  intro a b c h1 h2
  rcases (str_le_iff a b).mp h1 with h1 | h1 <;> rcases (str_le_iff b c).mp h2 with h2 | h2
  · exact (str_le_iff a c).mpr (Or.inl (str_lt_trans a b c h1 h2))
  · subst h2; exact (str_le_iff a b).mpr (Or.inl h1)
  · subst h1; exact (str_le_iff a c).mpr (Or.inl h2)
  · subst h1; subst h2; exact (str_le_iff a a).mpr (Or.inr rfl)

theorem low_le_total (a b : PyStr) : low_le a b = true ∨ low_le b a = true :=
  str_le_total (py_lower a) (py_lower b)

theorem low_le_trans (a b c : PyStr) :
    low_le a b = true → low_le b c = true → low_le a c = true :=
  str_le_trans (py_lower a) (py_lower b) (py_lower c)

/-! ### Lemmas about insertion sort and de-duplication -/

theorem ins_perm (le : α → α → Bool) (x : α) :
    ∀ l : List α, (ins le x l).Perm (x :: l)
  | [] => List.Perm.refl _
  | y :: ys => by
    simp only [ins]
    split
    · exact List.Perm.refl _
    · exact ((ins_perm le x ys).cons y).trans (List.Perm.swap x y ys)

theorem insort_perm (le : α → α → Bool) : ∀ l : List α, (insort le l).Perm l
  | [] => List.Perm.refl _
  | x :: xs => (ins_perm le x (insort le xs)).trans ((insort_perm le xs).cons x)

theorem mem_ins (le : α → α → Bool) (x z : α) (l : List α) :
    z ∈ ins le x l ↔ z = x ∨ z ∈ l := by
  constructor
  · intro h
    have := (ins_perm le x l).mem_iff.mp h
    simpa using this
  · intro h
    apply (ins_perm le x l).mem_iff.mpr
    simpa using h

theorem pairwise_ins (le : α → α → Bool)
    (htrans : ∀ a b c, le a b = true → le b c = true → le a c = true)
    (htotal : ∀ a b, le a b = true ∨ le b a = true) (x : α) :
    ∀ l : List α, l.Pairwise (fun a b => le a b = true) →
      (ins le x l).Pairwise (fun a b => le a b = true)
  | [], _ => by simp [ins]
  | y :: ys, h => by
    rcases List.pairwise_cons.mp h with ⟨hy, hys⟩
    simp only [ins]
    split
    · rename_i hle
      refine List.pairwise_cons.mpr ⟨?_, h⟩
      intro z hz
      rcases List.mem_cons.mp hz with hz | hz
      · subst hz; exact hle
      · exact htrans x y z hle (hy z hz)
    · rename_i hnle
      refine List.pairwise_cons.mpr ⟨?_, pairwise_ins le htrans htotal x ys hys⟩
      intro z hz
      rcases (mem_ins le x z ys).mp hz with hz | hz
      · rcases htotal x y with h1 | h1
        · exact absurd h1 hnle
        · rw [hz]; exact h1
      · exact hy z hz

theorem pairwise_insort (le : α → α → Bool)
    (htrans : ∀ a b c, le a b = true → le b c = true → le a c = true)
    (htotal : ∀ a b, le a b = true ∨ le b a = true) :
    ∀ l : List α, (insort le l).Pairwise (fun a b => le a b = true)
  | [] => List.Pairwise.nil
  | x :: xs => pairwise_ins le htrans htotal x (insort le xs)
      (pairwise_insort le htrans htotal xs)

theorem insort_eq_self (le : α → α → Bool) :
    ∀ l : List α, l.Pairwise (fun a b => le a b = true) → insort le l = l
  | [], _ => rfl
  | x :: xs, h => by
    rcases List.pairwise_cons.mp h with ⟨hx, hxs⟩
    simp only [insort, insort_eq_self le xs hxs]
    cases xs with
    | nil => rfl
    | cons y ys => simp [ins, hx y (List.mem_cons_self y ys)]

theorem mem_dedup_first_aux (z : PyStr) :
    ∀ (seen l : List PyStr), z ∈ dedup_first_aux seen l → z ∈ l := by
  intro seen l
  induction l generalizing seen with
  | nil => simp [dedup_first_aux]
  | cons x xs ih =>
    simp only [dedup_first_aux]
    split
    · intro h; exact List.mem_cons_of_mem x (ih seen h)
    · intro h
      rcases List.mem_cons.mp h with h | h
      · subst h; exact List.mem_cons_self _ _
      · exact List.mem_cons_of_mem x (ih (x :: seen) h)

theorem dedup_first_aux_nodup :
    ∀ (seen l : List PyStr),
      (dedup_first_aux seen l).Nodup ∧ ∀ z ∈ dedup_first_aux seen l, z ∉ seen := by
  intro seen l
  induction l generalizing seen with
  | nil => simp [dedup_first_aux]
  | cons x xs ih =>
    simp only [dedup_first_aux]
    split
    · exact ih seen
    · rename_i hx
      rcases ih (x :: seen) with ⟨hnd, hdisj⟩
      constructor
      · refine List.nodup_cons.mpr ⟨?_, hnd⟩
        intro hmem
        exact (hdisj x hmem) (List.mem_cons_self x seen)
      · intro z hz
        rcases List.mem_cons.mp hz with hz | hz
        · subst hz; exact hx
        · intro hzs
          exact (hdisj z hz) (List.mem_cons_of_mem x hzs)

theorem dedup_first_nodup (l : List PyStr) : (dedup_first l).Nodup :=
  (dedup_first_aux_nodup [] l).1

theorem mem_dedup_first (z : PyStr) (l : List PyStr) :
    z ∈ dedup_first l → z ∈ l :=
  mem_dedup_first_aux z [] l

theorem dedup_first_aux_eq_self :
    ∀ (seen l : List PyStr), l.Nodup → (∀ z ∈ l, z ∉ seen) →
      dedup_first_aux seen l = l := by
  intro seen l
  induction l generalizing seen with
  | nil => intro _ _; rfl
  | cons x xs ih =>
    intro hnd hdisj
    rcases List.nodup_cons.mp hnd with ⟨hx, hxs⟩
    simp only [dedup_first_aux]
    rw [if_neg (hdisj x (List.mem_cons_self x xs))]
    congr 1
    refine ih (x :: seen) hxs ?_
    intro z hz
    intro hmem
    rcases List.mem_cons.mp hmem with h | h
    · subst h; exact hx hz
    · exact hdisj z (List.mem_cons_of_mem x hz) h

theorem dedup_first_eq_self (l : List PyStr) (h : l.Nodup) : dedup_first l = l :=
  dedup_first_aux_eq_self [] l h (by simp)

/-! ### Ordering facts for the tag-count sort key and theorem for C8 -/

theorem tag_key_le_total (a b : PyStr × Int) :
    tag_key_le a b = true ∨ tag_key_le b a = true := by
  unfold tag_key_le
  by_cases hc : a.2 = b.2
  · rw [if_pos hc, if_pos hc.symm]
    by_cases hl : py_casefold a.1 = py_casefold b.1
    · rw [if_pos hl, if_pos hl.symm]
      exact str_le_total _ _
    · rw [if_neg hl, if_neg (Ne.symm hl)]
      rcases str_trichotomy (py_casefold a.1) (py_casefold b.1) with h | h | h
      · exact absurd h hl
      · exact Or.inl h
      · exact Or.inr h
  · rw [if_neg hc, if_neg (Ne.symm hc)]
    rcases lt_trichotomy a.2 b.2 with h | h | h
    · exact Or.inr (by simpa using h)
    · exact absurd h hc
    · exact Or.inl (by simpa using h)

theorem tag_key_le_trans (a b c : PyStr × Int) :
    tag_key_le a b = true → tag_key_le b c = true → tag_key_le a c = true := by
  unfold tag_key_le
  by_cases h1 : a.2 = b.2 <;> by_cases h2 : b.2 = c.2
  · have h3 : a.2 = c.2 := h1.trans h2
    rw [if_pos h1, if_pos h2, if_pos h3]
    by_cases g1 : py_casefold a.1 = py_casefold b.1 <;>
      by_cases g2 : py_casefold b.1 = py_casefold c.1
    · rw [if_pos g1, if_pos g2, if_pos (g1.trans g2)]
      exact str_le_trans _ _ _
    · have g3 : py_casefold a.1 ≠ py_casefold c.1 := by rw [g1]; exact g2
      rw [if_pos g1, if_neg g2, if_neg g3, g1]
      exact fun _ h => h
    · have g3 : py_casefold a.1 ≠ py_casefold c.1 := by rw [← g2]; exact g1
      rw [if_neg g1, if_pos g2, if_neg g3, ← g2]
      exact fun h _ => h
    · rw [if_neg g1, if_neg g2]
      intro hab hbc
      have g3 : py_casefold a.1 ≠ py_casefold c.1 := by
        intro he
        rw [he] at hab
        have := str_lt_trans _ _ _ hbc hab
        rw [str_lt_irrefl] at this
        exact Bool.false_ne_true this
      rw [if_neg g3]
      exact str_lt_trans _ _ _ hab hbc
  · rw [if_pos h1, if_neg h2]
    intro _ hbc
    have hbc' : c.2 < b.2 := by simpa using hbc
    have h3 : a.2 ≠ c.2 := by omega
    rw [if_neg h3]
    simp only [decide_eq_true_eq]
    omega
  · rw [if_neg h1, if_pos h2]
    intro hab _
    have hab' : b.2 < a.2 := by simpa using hab
    have h3 : a.2 ≠ c.2 := by omega
    rw [if_neg h3]
    simp only [decide_eq_true_eq]
    omega
  · rw [if_neg h1, if_neg h2]
    intro hab hbc
    have hab' : b.2 < a.2 := by simpa using hab
    have hbc' : c.2 < b.2 := by simpa using hbc
    have h3 : a.2 ≠ c.2 := by omega
    rw [if_neg h3]
    simp only [decide_eq_true_eq]
    omega

/-- Ordering stated by the spec for tag listings: strictly greater count
first, then ascending casefolded name, then ascending literal name. -/
def tag_order (a b : PyStr × Int) : Prop :=
  b.2 < a.2 ∨ (a.2 = b.2 ∧ (str_lt (py_casefold a.1) (py_casefold b.1) = true ∨
    (py_casefold a.1 = py_casefold b.1 ∧ str_le a.1 b.1 = true)))

theorem tag_key_le_imp_tag_order (a b : PyStr × Int)
    (h : tag_key_le a b = true) : tag_order a b := by
  unfold tag_key_le at h
  by_cases h1 : a.2 = b.2
  · rw [if_pos h1] at h
    by_cases g1 : py_casefold a.1 = py_casefold b.1
    · rw [if_pos g1] at h
      exact Or.inr ⟨h1, Or.inr ⟨g1, h⟩⟩
    · rw [if_neg g1] at h
      exact Or.inr ⟨h1, Or.inl h⟩
  · rw [if_neg h1] at h
    exact Or.inl (by simpa using h)

/-- C8: for every tag-count mapping and optional canonical-name mapping,
sorted_tag_names returns the display names of the count pairs, ordered by
strictly descending count, ties broken by ascending casefolded name, and
remaining ties by ascending literal name: the sorted pair list is a
permutation of the display pairs and is pairwise ordered by tag_order, and
the output is its name projection. -/
theorem sorted_tag_names_ordering (tag_counts : List (PyStr × Int))
    (canonical_names : Option (List (PyStr × PyStr))) :
    sorted_tag_names tag_counts canonical_names =
      (insort tag_key_le (display_pairs tag_counts canonical_names)).map Prod.fst ∧
    (insort tag_key_le (display_pairs tag_counts canonical_names)).Pairwise tag_order ∧
    (insort tag_key_le (display_pairs tag_counts canonical_names)).Perm
      (display_pairs tag_counts canonical_names) := by
  refine ⟨rfl, ?_, insort_perm _ _⟩
  exact (pairwise_insort tag_key_le tag_key_le_trans tag_key_le_total
    (display_pairs tag_counts canonical_names)).imp
    (fun h => tag_key_le_imp_tag_order _ _ h)

/-- C9 counterexample: normalize_tags output is not case-insensitively
unique — the input string holding the two tags Drama and drama keeps both,
and after case-folding the output contains a duplicate. -/
theorem normalize_tags_case_insensitive_duplicate :
    (normalize_tags (pstr "Drama,drama")).map py_casefold =
      [pstr "drama", pstr "drama"] ∧
    ¬ ((normalize_tags (pstr "Drama,drama")).map py_casefold).Nodup := by
  constructor
  · rfl
  · decide

/-! ### Lemmas about py_split, join_comma and py_strip (towards C9) -/

theorem py_split_ne_nil (c : Char) : ∀ s : PyStr, py_split c s ≠ []
  | [] => by simp [py_split]
  | a :: rest => by
    simp only [py_split]
    split
    · simp
    · cases h : py_split c rest with
      | nil => exact absurd h (py_split_ne_nil c rest)
      | cons p ps => simp [h]

theorem py_split_no_sep (c : Char) : ∀ (s : PyStr), ∀ p ∈ py_split c s, c ∉ p
  | [] => by simp [py_split]
  | a :: rest => by
    simp only [py_split]
    split
    · rename_i ha
      intro p hp
      rcases List.mem_cons.mp hp with hp | hp
      · subst hp; simp
      · exact py_split_no_sep c rest p hp
    · rename_i ha
      cases h : py_split c rest with
      | nil => exact absurd h (py_split_ne_nil c rest)
      | cons q qs =>
        intro p hp
        rcases List.mem_cons.mp hp with hp | hp
        · subst hp
          intro hmem
          rcases List.mem_cons.mp hmem with hmem | hmem
          · exact ha hmem.symm
          · exact py_split_no_sep c rest q (h ▸ List.mem_cons_self q qs) hmem
        · exact py_split_no_sep c rest p (h ▸ List.mem_cons_of_mem q hp)

theorem py_split_chars (c : Char) :
    ∀ (s : PyStr), ∀ p ∈ py_split c s, ∀ d ∈ p, d ∈ s
  | [] => by simp [py_split]
  | a :: rest => by
    simp only [py_split]
    split
    · intro p hp d hd
      rcases List.mem_cons.mp hp with hp | hp
      · subst hp; simp at hd
      · exact List.mem_cons_of_mem a (py_split_chars c rest p hp d hd)
    · cases h : py_split c rest with
      | nil => exact absurd h (py_split_ne_nil c rest)
      | cons q qs =>
        intro p hp d hd
        rcases List.mem_cons.mp hp with hp | hp
        · subst hp
          rcases List.mem_cons.mp hd with hd | hd
          · subst hd; exact List.mem_cons_self _ _
          · exact List.mem_cons_of_mem a
              (py_split_chars c rest q (h ▸ List.mem_cons_self q qs) d hd)
        · exact List.mem_cons_of_mem a
            (py_split_chars c rest p (h ▸ List.mem_cons_of_mem q hp) d hd)

theorem py_split_of_no_sep (c : Char) :
    ∀ s : PyStr, c ∉ s → py_split c s = [s]
  | [], _ => rfl
  | a :: rest, h => by
    have ha : ¬ a = c := fun he => h (he ▸ List.mem_cons_self a rest)
    have hrest : c ∉ rest := fun hm => h (List.mem_cons_of_mem a hm)
    simp only [py_split, if_neg ha, py_split_of_no_sep c rest hrest]

theorem py_split_append_sep (c : Char) :
    ∀ x s : PyStr, c ∉ x → py_split c (x ++ c :: s) = x :: py_split c s
  | [], s, _ => by simp [py_split]
  | a :: xt, s, h => by
    have ha : ¬ a = c := fun he => h (he ▸ List.mem_cons_self a xt)
    have hxt : c ∉ xt := fun hm => h (List.mem_cons_of_mem a hm)
    simp only [List.cons_append, py_split, if_neg ha, List.append_eq,
      py_split_append_sep c xt s hxt]

theorem join_comma_split :
    ∀ L : List PyStr, L ≠ [] → (∀ x ∈ L, (',' : Char) ∉ x) →
      py_split ',' (join_comma L) = L
  | [], h, _ => absurd rfl h
  | [x], _, hmem => by
    simpa [join_comma] using py_split_of_no_sep ',' x (hmem x (by simp))
  | x :: y :: rest, _, hmem => by
    have hx : (',' : Char) ∉ x := hmem x (by simp)
    show py_split ',' (x ++ ',' :: join_comma (y :: rest)) = x :: y :: rest
    rw [py_split_append_sep ',' x _ hx]
    rw [join_comma_split (y :: rest) (by simp) (fun z hz => hmem z (List.mem_cons_of_mem x hz))]

theorem split_tags_join (L : List PyStr) (hL : L ≠ [])
    (hmem : ∀ x ∈ L, (',' : Char) ∉ x ∧ (';' : Char) ∉ x) :
    split_tags (join_comma L) = L := by
  unfold split_tags
  rw [join_comma_split L hL (fun x hx => (hmem x hx).1)]
  have : ∀ x ∈ L, py_split ';' x = [x] :=
    fun x hx => py_split_of_no_sep ';' x (hmem x hx).2
  calc L.flatMap (py_split ';') = L.flatMap (fun x => [x]) := List.flatMap_congr this
    _ = L := by simp

/-! ### Lemmas about py_strip -/

/-- Left trim used inside py_strip. -/
def strip_front (l : PyStr) : PyStr := l.dropWhile py_is_space

/-- Right trim used inside py_strip. -/
def strip_back (l : PyStr) : PyStr := (l.reverse.dropWhile py_is_space).reverse

theorem py_strip_eq (l : PyStr) : py_strip l = strip_back (strip_front l) := rfl

theorem dropWhile_decomp (p : α → Bool) :
    ∀ l : List α, ∃ t, l = t ++ l.dropWhile p ∧ ∀ c ∈ t, p c = true
  | [] => ⟨[], rfl, by simp⟩
  | a :: l => by
    by_cases ha : p a = true
    · rcases dropWhile_decomp p l with ⟨t, ht, hall⟩
      refine ⟨a :: t, ?_, ?_⟩
      · simp [List.dropWhile_cons, ha]
        exact ht
      · intro c hc
        rcases List.mem_cons.mp hc with hc | hc
        · subst hc; exact ha
        · exact hall c hc
    · refine ⟨[], ?_, by simp⟩
      simp [List.dropWhile_cons, ha]

theorem dropWhile_head_not (p : α → Bool) :
    ∀ (l : List α) (c : α), (l.dropWhile p).head? = some c → p c = false
  | [], c => by simp
  | a :: l, c => by
    by_cases ha : p a = true
    · simp only [List.dropWhile_cons, ha, if_true]
      exact dropWhile_head_not p l c
    · simp only [List.dropWhile_cons, ha, if_false, List.head?_cons]
      intro h
      injection h with h
      subst h
      simpa using ha

theorem dropWhile_idem (p : α → Bool) (l : List α) :
    (l.dropWhile p).dropWhile p = l.dropWhile p := by
  cases h : l.dropWhile p with
  | nil => simp
  | cons a t =>
    have ha : p a = false := dropWhile_head_not p l a (by rw [h]; rfl)
    simp [List.dropWhile_cons, ha]

theorem dropWhile_eq_nil_all (p : α → Bool) :
    ∀ l : List α, l.dropWhile p = [] → ∀ c ∈ l, p c = true
  | [] => by simp
  | a :: l => by
    by_cases ha : p a = true
    · simp only [List.dropWhile_cons, ha, if_true]
      intro h c hc
      rcases List.mem_cons.mp hc with hc | hc
      · subst hc; exact ha
      · exact dropWhile_eq_nil_all p l h c hc
    · simp [List.dropWhile_cons, ha]

theorem dropWhile_all_eq_nil (p : α → Bool) :
    ∀ l : List α, (∀ c ∈ l, p c = true) → l.dropWhile p = []
  | [] => by simp
  | a :: l => by
    intro h
    have ha : p a = true := h a (List.mem_cons_self a l)
    simp only [List.dropWhile_cons, ha, if_true]
    exact dropWhile_all_eq_nil p l (fun c hc => h c (List.mem_cons_of_mem a hc))

theorem strip_back_decomp (l : PyStr) :
    ∃ t, l = strip_back l ++ t ∧ ∀ c ∈ t, py_is_space c = true := by
  rcases dropWhile_decomp py_is_space l.reverse with ⟨t, ht, hall⟩
  refine ⟨t.reverse, ?_, fun c hc => hall c (List.mem_reverse.mp hc)⟩
  conv_lhs => rw [← List.reverse_reverse l, ht]
  rw [List.reverse_append]
  rfl

theorem strip_front_decomp (l : PyStr) :
    ∃ t, l = t ++ strip_front l ∧ ∀ c ∈ t, py_is_space c = true :=
  dropWhile_decomp py_is_space l

theorem strip_back_idem (l : PyStr) : strip_back (strip_back l) = strip_back l := by
  unfold strip_back
  rw [List.reverse_reverse, dropWhile_idem]

theorem strip_front_head_not (l : PyStr) (c : Char) (t : PyStr)
    (h : strip_front l = c :: t) : py_is_space c = false :=
  dropWhile_head_not py_is_space l c (by rw [strip_front] at h; rw [h]; rfl)

theorem strip_front_of_head_not (c : Char) (t : PyStr)
    (h : py_is_space c = false) : strip_front (c :: t) = c :: t := by
  simp [strip_front, List.dropWhile_cons, h]

theorem strip_front_strip_back_strip_front (l : PyStr) :
    strip_front (strip_back (strip_front l)) = strip_back (strip_front l) := by
  cases hb : strip_back (strip_front l) with
  | nil => simp [strip_front]
  | cons c t =>
    rcases strip_back_decomp (strip_front l) with ⟨r, hr, _⟩
    rw [hb] at hr
    have hc : py_is_space c = false := strip_front_head_not l c (t ++ r) (by
      rw [hr]; rfl)
    exact strip_front_of_head_not c t hc

theorem py_strip_idem (l : PyStr) : py_strip (py_strip l) = py_strip l := by
  rw [py_strip_eq, py_strip_eq, strip_front_strip_back_strip_front, strip_back_idem]

theorem mem_py_strip (l : PyStr) (c : Char) (h : c ∈ py_strip l) : c ∈ l := by
  rw [py_strip_eq] at h
  rcases strip_back_decomp (strip_front l) with ⟨r, hr, _⟩
  rcases strip_front_decomp l with ⟨t, ht, _⟩
  have h1 : c ∈ strip_front l := by
    rw [hr]
    exact List.mem_append_left r h
  rw [ht]
  exact List.mem_append_right t h1

theorem py_strip_eq_nil_iff (l : PyStr) :
    py_strip l = [] ↔ ∀ c ∈ l, py_is_space c = true := by
  constructor
  · intro h c hc
    rcases strip_front_decomp l with ⟨t, ht, hallt⟩
    rcases strip_back_decomp (strip_front l) with ⟨r, hr, hallr⟩
    rw [py_strip_eq] at h
    rw [h] at hr
    simp only [List.nil_append] at hr
    rw [ht] at hc
    rcases List.mem_append.mp hc with hc | hc
    · exact hallt c hc
    · rw [hr] at hc
      exact hallr c hc
  · intro h
    rw [py_strip_eq]
    have h1 : strip_front l = [] := dropWhile_all_eq_nil py_is_space l h
    rw [h1]
    rfl

/-! ### Theorems for C9 -/

theorem normalize_tags_mem (s : PyStr) :
    ∀ x ∈ normalize_tags s,
      py_strip x = x ∧ x ≠ [] ∧ (',' : Char) ∉ x ∧ (';' : Char) ∉ x := by
  intro x hx
  unfold normalize_tags at hx
  split at hx
  · simp at hx
  · have hx1 : x ∈ dedup_first
        (((split_tags s).map py_strip).filter (fun t => ¬ t = [])) :=
      (insort_perm _ _).mem_iff.mp hx
    have hx2 := mem_dedup_first _ _ hx1
    rcases List.mem_filter.mp hx2 with ⟨hx3, hne⟩
    rcases List.mem_map.mp hx3 with ⟨y, hy, hxy⟩
    rcases List.mem_flatMap.mp hy with ⟨z, hz, hyz⟩
    have hz_comma : (',' : Char) ∉ z := py_split_no_sep ',' s z hz
    have hy_semi : (';' : Char) ∉ y := py_split_no_sep ';' z y hyz
    have hy_comma : (',' : Char) ∉ y :=
      fun hm => hz_comma (py_split_chars ';' z y hyz ',' hm)
    refine ⟨?_, ?_, ?_, ?_⟩
    · rw [← hxy]; exact py_strip_idem y
    · simpa using hne
    · intro hm
      exact hy_comma (mem_py_strip y ',' (hxy ▸ hm))
    · intro hm
      exact hy_semi (mem_py_strip y ';' (hxy ▸ hm))

theorem join_comma_ne_nil :
    ∀ L : List PyStr, L ≠ [] → (∀ x ∈ L, x ≠ []) → join_comma L ≠ []
  | [], h, _ => absurd rfl h
  | [x], _, hmem => by simpa [join_comma] using hmem x (by simp)
  | x :: y :: rest, _, _ => by
    simp [join_comma]

/-- C9 (amended): normalize_tags is idempotent — normalizing the
comma-joined result of a previous normalization yields the same list — and
its output is sorted by lowercase key and exactly de-duplicated (no two
equal entries).  The output is however not case-insensitively unique: two
entries differing only in case both survive (see the counterexample
normalize_tags_case_insensitive_duplicate). -/
theorem normalize_tags_idempotent_sorted_nodup (s : PyStr) :
    normalize_tags (join_comma (normalize_tags s)) = normalize_tags s ∧
    (normalize_tags s).Pairwise (fun a b => low_le a b = true) ∧
    (normalize_tags s).Nodup := by
  have hsorted : ∀ r : PyStr,
      (normalize_tags r).Pairwise (fun a b => low_le a b = true) := by
    intro r
    unfold normalize_tags
    split
    · exact List.Pairwise.nil
    · exact pairwise_insort low_le low_le_trans low_le_total _
  have hnodup : ∀ r : PyStr, (normalize_tags r).Nodup := by
    intro r
    unfold normalize_tags
    split
    · exact List.nodup_nil
    · exact ((insort_perm _ _).nodup_iff).mpr (dedup_first_nodup _)
  refine ⟨?_, hsorted s, hnodup s⟩
  by_cases h0 : normalize_tags s = []
  · rw [h0]
    rfl
  · have hmem := normalize_tags_mem s
    have hjoin_ne : join_comma (normalize_tags s) ≠ [] :=
      join_comma_ne_nil _ h0 (fun x hx => (hmem x hx).2.1)
    have hsplit : split_tags (join_comma (normalize_tags s)) = normalize_tags s :=
      split_tags_join _ h0
        (fun x hx => ⟨(hmem x hx).2.2.1, (hmem x hx).2.2.2⟩)
    have hmapstrip : (normalize_tags s).map py_strip = normalize_tags s := by
      have h1 : (normalize_tags s).map py_strip = (normalize_tags s).map id :=
        List.map_congr_left (fun x hx => (hmem x hx).1)
      rw [h1, List.map_id]
    have hfilter :
        (normalize_tags s).filter (fun t => ¬ t = []) = normalize_tags s := by
      rw [List.filter_eq_self]
      intro a ha
      simpa using (hmem a ha).2.1
    conv_lhs => rw [normalize_tags]
    rw [if_neg hjoin_ne]
    show insort low_le (dedup_first
        (((split_tags (join_comma (normalize_tags s))).map py_strip).filter
          (fun t => ¬ t = []))) = normalize_tags s
    rw [hsplit, hmapstrip, hfilter, dedup_first_eq_self _ (hnodup s)]
    exact insort_eq_self low_le _ (hsorted s)

/-! ### services/items.py: item filtering, serialization and sorting -/

/-- Casefolded tag-key set of an item, as built at the top of
item_matches_filters (a Python set, modelled by the casefolded tag list with
membership semantics). -/
def item_tag_keys (it : Item) : List PyStr := (item_tags it).map py_casefold

/-- Title candidates collected by item_matches_filters: the Name and
SortName values that are present and not blank after stripping. -/
def title_candidates (it : Item) : List PyStr :=
  ([it.name, it.sortName].filterMap id).filter (fun t => ¬ py_strip t = [])

/-- Embedding of services/items.py item_matches_filters: required tag keys
must be a subset of the item's casefolded tags, forbidden tag keys must not
intersect them, and a non-empty title query must occur in the casefold of a
non-blank Name or SortName. -/
def item_matches_filters (it : Item) (include_tag_keys exclude_tag_keys : List PyStr)
    (title_query_lower : PyStr) : Bool :=
  if include_tag_keys ≠ [] ∧ ¬ (∀ t ∈ include_tag_keys, t ∈ item_tag_keys it) then
    false
  else if exclude_tag_keys ≠ [] ∧ ∃ t ∈ item_tag_keys it, t ∈ exclude_tag_keys then
    false
  else if title_query_lower ≠ [] then
    (title_candidates it).any (fun c => str_contains (py_casefold c) title_query_lower)
  else true

/-- Serialized item as produced by serialize_item_for_response. -/
structure SerItem where
  id : PyStr
  type : PyStr
  name : PyStr
  sortName : PyStr
  path : PyStr
  tags : List PyStr
  premiereDate : Option PyStr
  productionYear : Option Int
  deriving DecidableEq, Repr

/-- Embedding of services/items.py serialize_item_for_response; SortName
falls back to Name when absent or falsy (empty). -/
def serialize_item_for_response (it : Item) : SerItem :=
  let name := it.name.getD []
  let sort_name : PyStr :=
    match it.sortName with
    | some s => if s = [] then name else s
    | none => name
  { id := it.id, type := it.type, name := name, sortName := sort_name,
    path := it.path, tags := item_tags it,
    premiereDate := it.premiereDate, productionYear := it.productionYear }

/-- Embedding of services/items.py _name_sort_key over a serialized item:
(casefold(SortName or Name or ""), casefold(Name or ""), Id). -/
def name_sort_key (si : SerItem) : PyStr × PyStr × PyStr :=
  (py_casefold (if si.sortName = [] then si.name else si.sortName),
   py_casefold si.name, si.id)

/-- Lexicographic boolean order on name sort keys. -/
def name_key_le (a b : SerItem) : Bool :=
  if (name_sort_key a).1 = (name_sort_key b).1 then
    if (name_sort_key a).2.1 = (name_sort_key b).2.1 then
      str_le (name_sort_key a).2.2 (name_sort_key b).2.2
    else str_lt (name_sort_key a).2.1 (name_sort_key b).2.1
  else str_lt (name_sort_key a).1 (name_sort_key b).1

/-- Embedding of services/items.py sort_items_for_response for the default
SortName sort field (the only one exercised by the claims; the PremiereDate
branch of the source is not needed here): stable sort by _name_sort_key,
reversed when the order is Descending. -/
def sort_items_for_response (items : List SerItem) (descending : Bool) :
    List SerItem :=
  let sorted_items := insort name_key_le items
  if descending then sorted_items.reverse else sorted_items

/-! ### Substring and whitespace lemmas for C2 -/

theorem str_starts_with_subset :
    ∀ h n : PyStr, str_starts_with h n = true → ∀ c ∈ n, c ∈ h
  | _, [], _, c, hc => by simp at hc
  | [], _ :: _, hh, c, _ => by simp [str_starts_with] at hh
  | a :: s, d :: t, hh, c, hc => by
    simp only [str_starts_with, Bool.and_eq_true, decide_eq_true_eq] at hh
    rcases hh with ⟨had, hrest⟩
    rcases List.mem_cons.mp hc with hc | hc
    · rw [hc, ← had]
      exact List.mem_cons_self a s
    · exact List.mem_cons_of_mem a (str_starts_with_subset s t hrest c hc)

theorem str_contains_subset :
    ∀ h n : PyStr, str_contains h n = true → ∀ c ∈ n, c ∈ h
  | _, [], _, c, hc => by simp at hc
  | [], d :: t, hh, c, _ => by simp [str_contains] at hh
  | a :: s, d :: t, hh, c, hc => by
    simp only [str_contains, Bool.or_eq_true] at hh
    rcases hh with hh | hh
    · exact str_starts_with_subset _ _ hh c hc
    · exact List.mem_cons_of_mem a (str_contains_subset s (d :: t) hh c hc)

theorem str_contains_all_space (h q : PyStr)
    (hh : ∀ c ∈ h, py_is_space c = true) (hq : ∃ c ∈ q, py_is_space c = false) :
    ¬ str_contains h q = true := by
  intro hcon
  rcases hq with ⟨c, hcq, hcs⟩
  rw [hh c (str_contains_subset h q hcon c hcq)] at hcs
  exact Bool.true_eq_false.mp hcs

theorem toLower_space (c : Char) (h : py_is_space c = true) :
    Char.toLower c = c := by
  simp only [py_is_space, Bool.or_eq_true, decide_eq_true_eq] at h
  rcases h with ((h | h) | h) | h <;> subst h <;> decide

theorem py_casefold_all_space (s : PyStr) (h : ∀ c ∈ s, py_is_space c = true) :
    ∀ c ∈ py_casefold s, py_is_space c = true := by
  intro c hc
  rcases List.mem_map.mp hc with ⟨d, hd, hdc⟩
  rw [← hdc, toLower_space d (h d hd)]
  exact h d hd

/-! ### Theorem for C2 -/

/-- The filter property exactly as the specification words it: the item's
case-folded tag set is a superset of the required-tag keys, disjoint from
the forbidden-tag keys, and a present title query occurs case-insensitively
as a substring of the display name or the sort name. -/
def spec_matches_filters (it : Item) (inc exc : List PyStr) (q : PyStr) : Prop :=
  (∀ t ∈ inc, t ∈ item_tag_keys it) ∧
  (∀ t ∈ exc, t ∉ item_tag_keys it) ∧
  (q ≠ [] →
    str_contains (py_casefold (it.name.getD [])) q = true ∨
    str_contains (py_casefold (it.sortName.getD [])) q = true)

/-- C2: for every item and filter set, item_matches_filters returns true iff
the item's case-folded tag set contains every required tag key, contains no
forbidden tag key, and — when a title query is present — the query occurs in
the casefold of the display name or sort name.  The hypothesis reflects that
the query is a stripped string: it is empty or contains a non-whitespace
character. -/
theorem item_matches_filters_iff (it : Item) (inc exc : List PyStr) (q : PyStr)
    (hq : q = [] ∨ ∃ c ∈ q, py_is_space c = false) :
    item_matches_filters it inc exc q = true ↔ spec_matches_filters it inc exc q := by
  unfold item_matches_filters spec_matches_filters
  by_cases h1 : inc ≠ [] ∧ ¬ (∀ t ∈ inc, t ∈ item_tag_keys it)
  · rw [if_pos h1]
    constructor
    · intro h
      exact absurd h (by simp)
    · rintro ⟨hsup, _, _⟩
      exact absurd hsup h1.2
  · rw [if_neg h1]
    have hsup : ∀ t ∈ inc, t ∈ item_tag_keys it := by
      rcases not_and_or.mp h1 with h | h
      · intro t ht
        rw [not_not.mp h] at ht
        simp at ht
      · exact not_not.mp h
    by_cases h2 : exc ≠ [] ∧ ∃ t ∈ item_tag_keys it, t ∈ exc
    · rw [if_pos h2]
      constructor
      · intro h
        exact absurd h (by simp)
      · rintro ⟨_, hdis, _⟩
        rcases h2.2 with ⟨t, htk, hte⟩
        exact absurd htk (hdis t hte)
    · rw [if_neg h2]
      have hdis : ∀ t ∈ exc, t ∉ item_tag_keys it := by
        rcases not_and_or.mp h2 with h | h
        · intro t ht
          rw [not_not.mp h] at ht
          simp at ht
        · intro t ht htk
          exact h ⟨t, htk, ht⟩
      by_cases h3 : q ≠ []
      · rw [if_pos h3]
        have hq' : ∃ c ∈ q, py_is_space c = false := by
          rcases hq with hq | hq
          · exact absurd hq h3
          · exact hq
        constructor
        · intro hany
          refine ⟨hsup, hdis, fun _ => ?_⟩
          rcases List.any_eq_true.mp hany with ⟨cand, hcand, hcont⟩
          rcases List.mem_filter.mp hcand with ⟨hcand1, _⟩
          rcases List.mem_filterMap.mp hcand1 with ⟨a, ha, hac⟩
          have ha' : a = some cand := by
            simpa using hac
          rcases List.mem_cons.mp ha with ha | ha
          · left
            have hn : it.name = some cand := by rw [← ha]; exact ha'
            rw [hn]
            simpa using hcont
          · right
            have hsn : it.sortName = some cand := by
              rw [← List.mem_singleton.mp ha]
              exact ha'
            rw [hsn]
            simpa using hcont
        · rintro ⟨_, _, htitle⟩
          rcases htitle h3 with hc | hc
          · cases hname : it.name with
            | none =>
              rw [hname] at hc
              cases hq0 : q with
              | nil => exact absurd hq0 h3
              | cons d t =>
                rw [hq0] at hc
                exact absurd hc (by simp [py_casefold, str_contains])
            | some v =>
              rw [hname] at hc
              by_cases hblank : py_strip v = []
              · have hall : ∀ c ∈ v, py_is_space c = true :=
                  (py_strip_eq_nil_iff v).mp hblank
                exact absurd hc
                  (str_contains_all_space _ q (py_casefold_all_space v hall) hq')
              · apply List.any_eq_true.mpr
                refine ⟨v, ?_, by simpa using hc⟩
                apply List.mem_filter.mpr
                refine ⟨?_, by simpa using hblank⟩
                apply List.mem_filterMap.mpr
                exact ⟨it.name, List.mem_cons_self _ _, by rw [hname]; rfl⟩
          · cases hname : it.sortName with
            | none =>
              rw [hname] at hc
              cases hq0 : q with
              | nil => exact absurd hq0 h3
              | cons d t =>
                rw [hq0] at hc
                exact absurd hc (by simp [py_casefold, str_contains])
            | some v =>
              rw [hname] at hc
              by_cases hblank : py_strip v = []
              · have hall : ∀ c ∈ v, py_is_space c = true :=
                  (py_strip_eq_nil_iff v).mp hblank
                exact absurd hc
                  (str_contains_all_space _ q (py_casefold_all_space v hall) hq')
              · apply List.any_eq_true.mpr
                refine ⟨v, ?_, by simpa using hc⟩
                apply List.mem_filter.mpr
                refine ⟨?_, by simpa using hblank⟩
                apply List.mem_filterMap.mpr
                refine ⟨it.sortName, ?_, by rw [hname]; rfl⟩
                exact List.mem_cons_of_mem _ (List.mem_singleton.mpr rfl)
      · rw [if_neg h3]
        constructor
        · intro _
          exact ⟨hsup, hdis, fun hq3 => absurd (not_not.mp h3) hq3⟩
        · intro _
          rfl

/-- Witness for item_matches_filters_iff: a concrete item tagged Action named
Alpha, with required key action, forbidden key drama and title query alp. -/
theorem item_matches_filters_iff_witness :
    item_matches_filters
        { name := some (pstr "Alpha"), tags := [pstr "Action"] }
        [pstr "action"] [pstr "drama"] (pstr "alp") = true ↔
      spec_matches_filters
        { name := some (pstr "Alpha"), tags := [pstr "Action"] }
        [pstr "action"] [pstr "drama"] (pstr "alp") :=
  item_matches_filters_iff
    { name := some (pstr "Alpha"), tags := [pstr "Action"] }
    [pstr "action"] [pstr "drama"] (pstr "alp")
    (Or.inr ⟨'a', by decide, by decide⟩)

/-! ### services/items_cache.py: the item query cache -/

/-- Cache entry: a response payload and its storage timestamp. -/
structure ItemQueryCacheEntry (ρ : Type) where
  response : ρ
  stored_at : Nat
  deriving DecidableEq, Repr

/-- The OrderedDict backing the query cache: an association list in access
order, head = least recently used, last = most recently used. -/
abbrev QueryCache (κ ρ : Type) := List (κ × ItemQueryCacheEntry ρ)

/-- Removal of a key from the ordered cache. -/
def remove_key [DecidableEq κ] (c : QueryCache κ ρ) (k : κ) : QueryCache κ ρ :=
  c.filter (fun p => ¬ p.1 = k)

/-- Lookup of the entry stored under a key. -/
def lookup_entry [DecidableEq κ] (c : QueryCache κ ρ) (k : κ) :
    Option (ItemQueryCacheEntry ρ) :=
  (c.find? (fun p => decide (p.1 = k))).map (fun p => p.2)

/-- Embedding of items_cache.py _evict_if_needed: pop least-recently-used
entries (the head) until at most ITEM_QUERY_CACHE_MAX_ENTRIES remain. -/
def evict_if_needed : QueryCache κ ρ → QueryCache κ ρ
  | [] => []
  | e :: rest =>
    if ITEM_QUERY_CACHE_MAX_ENTRIES < (e :: rest).length then evict_if_needed rest
    else e :: rest

/-- Embedding of items_cache.py get_cached_response: miss on an absent key;
an entry whose age reached the TTL is removed and reported as a miss; a
fresh hit moves the key to the most-recently-used end and returns the
response.  The function returns the response (if any) and the new cache. -/
def get_cached_response [DecidableEq κ] (c : QueryCache κ ρ) (k : κ) (now : Nat) :
    Option ρ × QueryCache κ ρ :=
  match c.find? (fun p => decide (p.1 = k)) with
  | none => (none, c)
  | some p =>
    if ITEM_QUERY_CACHE_TTL ≤ now - p.2.stored_at then (none, remove_key c k)
    else (some p.2.response, remove_key c k ++ [(k, p.2)])

/-- Embedding of items_cache.py set_cached_response: store the entry, move
the key to the most-recently-used end, then evict as needed. -/
def set_cached_response [DecidableEq κ] (c : QueryCache κ ρ) (k : κ) (resp : ρ)
    (now : Nat) : QueryCache κ ρ :=
  evict_if_needed (remove_key c k ++ [(k, ⟨resp, now⟩)])

theorem evict_if_needed_drop :
    ∀ c : QueryCache κ ρ,
      evict_if_needed c = c.drop (c.length - ITEM_QUERY_CACHE_MAX_ENTRIES)
  | [] => by
    rw [show evict_if_needed ([] : QueryCache κ ρ) = [] from rfl, List.drop_nil]
  | e :: rest => by
    simp only [evict_if_needed]
    split
    · rename_i h
      rw [evict_if_needed_drop rest]
      have hlen : (e :: rest).length - ITEM_QUERY_CACHE_MAX_ENTRIES =
          (rest.length - ITEM_QUERY_CACHE_MAX_ENTRIES) + 1 := by
        simp only [List.length_cons] at h ⊢
        omega
      rw [hlen, List.drop_succ_cons]
    · rename_i h
      have h0 : (e :: rest).length - ITEM_QUERY_CACHE_MAX_ENTRIES = 0 := by omega
      rw [h0, List.drop_zero]

theorem evict_if_needed_length (c : QueryCache κ ρ) :
    (evict_if_needed c).length ≤ ITEM_QUERY_CACHE_MAX_ENTRIES := by
  rw [evict_if_needed_drop]
  simp only [List.length_drop]
  omega

theorem evict_if_needed_getLast (l : QueryCache κ ρ) (x : κ × ItemQueryCacheEntry ρ) :
    (evict_if_needed (l ++ [x])).getLast? = some x := by
  rw [evict_if_needed_drop]
  have hle : (l ++ [x]).length - ITEM_QUERY_CACHE_MAX_ENTRIES ≤ l.length := by
    simp only [List.length_append, List.length_singleton, ITEM_QUERY_CACHE_MAX_ENTRIES]
    omega
  rw [List.drop_append_of_le_length hle]
  exact List.getLast?_concat _

/-- C6: for the item query cache,
(1) reading a key whose entry age reached the TTL removes the entry and
    reports a miss;
(2) after every put the cache holds at most ITEM_QUERY_CACHE_MAX_ENTRIES
    entries;
(3) eviction removes entries from the least-recently-used end first (it
    drops exactly the oldest surplus entries);
(4) every put leaves the key at the most-recently-used position; and
(5) every successful read returns the stored response and moves the key to
    the most-recently-used position. -/
theorem item_query_cache_props (κ ρ : Type) [DecidableEq κ] :
    (∀ (c : QueryCache κ ρ) (k : κ) (now : Nat) (e : ItemQueryCacheEntry ρ),
        lookup_entry c k = some e → ITEM_QUERY_CACHE_TTL ≤ now - e.stored_at →
        get_cached_response c k now = (none, remove_key c k)) ∧
    (∀ (c : QueryCache κ ρ) (k : κ) (resp : ρ) (now : Nat),
        (set_cached_response c k resp now).length ≤ ITEM_QUERY_CACHE_MAX_ENTRIES) ∧
    (∀ c : QueryCache κ ρ,
        evict_if_needed c = c.drop (c.length - ITEM_QUERY_CACHE_MAX_ENTRIES)) ∧
    (∀ (c : QueryCache κ ρ) (k : κ) (resp : ρ) (now : Nat),
        (set_cached_response c k resp now).getLast? = some (k, ⟨resp, now⟩)) ∧
    (∀ (c : QueryCache κ ρ) (k : κ) (now : Nat) (e : ItemQueryCacheEntry ρ),
        lookup_entry c k = some e → now - e.stored_at < ITEM_QUERY_CACHE_TTL →
        get_cached_response c k now =
          (some e.response, remove_key c k ++ [(k, e)]) ∧
        (remove_key c k ++ [(k, e)]).getLast? = some (k, e)) := by
  refine ⟨?_, ?_, evict_if_needed_drop, ?_, ?_⟩
  · intro c k now e hl hexp
    unfold lookup_entry at hl
    rcases Option.map_eq_some'.mp hl with ⟨p, hfind, hpe⟩
    unfold get_cached_response
    simp only [hfind]
    rw [hpe, if_pos hexp]
  · intro c k resp now
    exact evict_if_needed_length _
  · intro c k resp now
    exact evict_if_needed_getLast _ _
  · intro c k now e hl hfresh
    unfold lookup_entry at hl
    rcases Option.map_eq_some'.mp hl with ⟨p, hfind, hpe⟩
    unfold get_cached_response
    simp only [hfind]
    rw [hpe, if_neg (by omega)]
    exact ⟨rfl, List.getLast?_concat _⟩

/-- Witness for item_query_cache_props: one-entry cache over Nat keys and
payloads, read when expired (age exactly the TTL) and when fresh. -/
theorem item_query_cache_props_witness :
    get_cached_response ([(1, ⟨7, 0⟩)] : QueryCache Nat Nat) 1 600 =
      (none, remove_key ([(1, ⟨7, 0⟩)] : QueryCache Nat Nat) 1) ∧
    (set_cached_response ([(1, ⟨7, 0⟩)] : QueryCache Nat Nat) 2 9 10).length ≤
      ITEM_QUERY_CACHE_MAX_ENTRIES ∧
    get_cached_response ([(1, ⟨7, 0⟩)] : QueryCache Nat Nat) 1 599 =
      (some 7, remove_key ([(1, ⟨7, 0⟩)] : QueryCache Nat Nat) 1 ++ [(1, ⟨7, 0⟩)]) :=
  ⟨(item_query_cache_props Nat Nat).1 [(1, ⟨7, 0⟩)] 1 600 ⟨7, 0⟩ rfl (by decide),
   (item_query_cache_props Nat Nat).2.1 [(1, ⟨7, 0⟩)] 2 9 10,
   ((item_query_cache_props Nat Nat).2.2.2.2 [(1, ⟨7, 0⟩)] 1 599 ⟨7, 0⟩ rfl
     (by decide)).1⟩

/-! ### routes/items.py: the prefetch job tables

Keys are abstracted to Nat (the prefetch cache key of a request), job ids to
Nat (uuid4 values), and wall-clock times to Nat seconds.  Each mutation that
the source performs under _PREFETCH_JOB_LOCK, together with the per-job
status updates of _run_prefetch_job, is modelled as one atomic step. -/

/-- Lifecycle status of a prefetch job. -/
inductive JobStatus where
  | pending
  | running
  | completed
  | failed
  deriving DecidableEq, Repr

/-- Embedding of the ItemPrefetchJob record (the fields the claims need). -/
structure ItemPrefetchJob where
  job_id : Nat
  key : Nat
  status : JobStatus
  completed_at : Option Nat
  deriving DecidableEq, Repr

/-- The two module-level job tables: _ITEM_PREFETCH_JOBS (all jobs, in
creation order) and _ITEM_PREFETCH_JOBS_BY_KEY (key to job id). -/
structure JobTables where
  jobs : List ItemPrefetchJob
  by_key : List (Nat × Nat)
  deriving DecidableEq, Repr

/-- Initial state: both tables empty. -/
def init_job_tables : JobTables := ⟨[], []⟩

/-- Lookup of a job record by id. -/
def find_job (s : JobTables) (jid : Nat) : Option ItemPrefetchJob :=
  s.jobs.find? (fun j => decide (j.job_id = jid))

/-- A job is live when its status is pending or running. -/
def job_is_live (j : ItemPrefetchJob) : Bool :=
  j.status = JobStatus.pending || j.status = JobStatus.running

/-- Expiry condition of _cleanup_prefetch_jobs_locked: completed_at is set
and at least ITEM_PREFETCH_JOB_TTL ago. -/
def job_expired (now : Nat) (j : ItemPrefetchJob) : Bool :=
  match j.completed_at with
  | some t => ITEM_PREFETCH_JOB_TTL ≤ now - t
  | none => false

/-- Embedding of _cleanup_prefetch_jobs_locked: every expired job is removed
from the job table, and for each expired job the by-key table entry under
that job's key is popped unconditionally — whichever job it points to. -/
def cleanup_prefetch_jobs (s : JobTables) (now : Nat) : JobTables :=
  let expired := s.jobs.filter (job_expired now)
  { jobs := s.jobs.filter (fun j => ¬ job_expired now j = true),
    by_key := s.by_key.filter
      (fun kv => ¬ expired.any (fun j => j.key = kv.1) = true) }

/-- The live job currently indexed for a key, if any: the by-key entry,
resolved through the job table, kept only when pending or running. -/
def indexed_live_job (s : JobTables) (key : Nat) : Option ItemPrefetchJob :=
  match (s.by_key.find? (fun kv => decide (kv.1 = key))).bind
      (fun kv => find_job s kv.2) with
  | some j => if job_is_live j then some j else none
  | none => none

/-- Embedding of _ensure_prefetch_job: clean up, return the indexed job for
the key when it is pending or running, otherwise create a fresh pending job
under a new id and index it. -/
def ensure_prefetch_job (s : JobTables) (key now new_id : Nat) :
    ItemPrefetchJob × JobTables :=
  let s1 := cleanup_prefetch_jobs s now
  match indexed_live_job s1 key with
  | some j => (j, s1)
  | none =>
    let job : ItemPrefetchJob := ⟨new_id, key, JobStatus.pending, none⟩
    (job, { jobs := s1.jobs ++ [job],
            by_key := s1.by_key.filter (fun kv => ¬ kv.1 = key) ++ [(key, new_id)] })

/-- Status update applied to one job record. -/
def update_job (s : JobTables) (jid : Nat) (f : ItemPrefetchJob → ItemPrefetchJob) :
    JobTables :=
  { s with jobs := s.jobs.map (fun j => if j.job_id = jid then f j else j) }

/-- Start of _run_prefetch_job: the job status becomes running. -/
def run_job_start (s : JobTables) (jid : Nat) : JobTables :=
  update_job s jid (fun j => { j with status := JobStatus.running })

/-- End of _run_prefetch_job (modelled atomically with its finally block):
the status becomes completed or failed, completed_at is recorded, and the
by-key entry under the job's key is popped if present — unconditionally,
whichever job it points to. -/
def run_job_finish (s : JobTables) (jid : Nat) (ok : Bool) (now : Nat) : JobTables :=
  let s1 := update_job s jid (fun j =>
    { j with status := if ok then JobStatus.completed else JobStatus.failed,
             completed_at := some now })
  match find_job s jid with
  | some j => { s1 with by_key := s1.by_key.filter (fun kv => ¬ kv.1 = j.key) }
  | none => s1

/-- Atomic steps of the job subsystem. -/
inductive JobStep where
  | ensure (key now new_id : Nat)
  | runStart (jid : Nat)
  | runFinish (jid : Nat) (ok : Bool) (now : Nat)
  | poll (now : Nat)
  deriving DecidableEq, Repr

/-- Effect of one step on the job tables (poll models _get_prefetch_job,
which only triggers cleanup). -/
def apply_job_step (s : JobTables) : JobStep → JobTables
  | .ensure key now new_id => (ensure_prefetch_job s key now new_id).2
  | .runStart jid => run_job_start s jid
  | .runFinish jid ok now => run_job_finish s jid ok now
  | .poll now => cleanup_prefetch_jobs s now

/-- State reached after a list of steps from the initial empty tables. -/
def run_job_steps (steps : List JobStep) : JobTables :=
  steps.foldl apply_job_step init_job_tables

/-- The invariant asserted by the claim: at most one pending/running job
exists per key. -/
def at_most_one_live_per_key (s : JobTables) : Prop :=
  ∀ j1 ∈ s.jobs, ∀ j2 ∈ s.jobs,
    job_is_live j1 = true → job_is_live j2 = true → j1.key = j2.key →
      j1.job_id = j2.job_id

instance (s : JobTables) : Decidable (at_most_one_live_per_key s) := by
  unfold at_most_one_live_per_key
  infer_instance

/-- Trace falsifying the claim: job 1 for key 0 completes at t=10; job 2 for
the same key is created at t=20 and is still pending when, at t=1810, job 1
expires — the cleanup run by the third ensure pops the by-key entry that
now indexes job 2, so the ensure creates job 3 although job 2 is live. -/
def duplicate_job_steps : List JobStep :=
  [ .ensure 0 0 1,
    .runStart 1,
    .runFinish 1 true 10,
    .ensure 0 20 2,
    .ensure 0 1810 3 ]

/-- C5 counterexample: the state reached by duplicate_job_steps holds two
pending jobs (ids 2 and 3) for key 0, so the at-most-one-live-job-per-key
invariant fails in a reachable state, and the final _ensure_prefetch_job
call created a new job while a pending job for the key existed. -/
theorem ensure_prefetch_job_duplicate_live_jobs :
    run_job_steps duplicate_job_steps =
      { jobs := [⟨2, 0, JobStatus.pending, none⟩, ⟨3, 0, JobStatus.pending, none⟩],
        by_key := [(0, 3)] } ∧
    ¬ at_most_one_live_per_key (run_job_steps duplicate_job_steps) := by
  constructor
  · rfl
  · decide

/-- C5 (amended): the by-key table indexes at most one job per key, and
_ensure_prefetch_job returns the indexed job without touching the state
when that job is pending or running, creating a fresh pending job exactly
when no live job is indexed for the key after cleanup.  The stronger claim
— at most one pending/running job per key in every reachable state — fails:
cleanup of an expired completed job pops the by-key entry unconditionally,
which can deindex a newer live job for the same key and allow a duplicate
(see ensure_prefetch_job_duplicate_live_jobs). -/
theorem ensure_prefetch_job_returns_indexed_live (s : JobTables)
    (key now new_id : Nat) :
    (∀ j, indexed_live_job (cleanup_prefetch_jobs s now) key = some j →
      ensure_prefetch_job s key now new_id = (j, cleanup_prefetch_jobs s now)) ∧
    (indexed_live_job (cleanup_prefetch_jobs s now) key = none →
      (ensure_prefetch_job s key now new_id).1 =
        ⟨new_id, key, JobStatus.pending, none⟩ ∧
      (ensure_prefetch_job s key now new_id).2.jobs =
        (cleanup_prefetch_jobs s now).jobs ++ [⟨new_id, key, JobStatus.pending, none⟩]) := by
  constructor
  · intro j hj
    unfold ensure_prefetch_job
    simp only [hj]
  · intro hnone
    unfold ensure_prefetch_job
    simp only [hnone]
    trivial

/-- Witness for ensure_prefetch_job_returns_indexed_live: a state holding
one pending job for key 0 (attach to it), and key 5 (create a new job). -/
theorem ensure_prefetch_job_returns_indexed_live_witness :
    ensure_prefetch_job ⟨[⟨1, 0, JobStatus.pending, none⟩], [(0, 1)]⟩ 0 50 9 =
      (⟨1, 0, JobStatus.pending, none⟩,
        cleanup_prefetch_jobs ⟨[⟨1, 0, JobStatus.pending, none⟩], [(0, 1)]⟩ 50) ∧
    (ensure_prefetch_job ⟨[⟨1, 0, JobStatus.pending, none⟩], [(0, 1)]⟩ 5 50 9).1 =
      ⟨9, 5, JobStatus.pending, none⟩ :=
  ⟨(ensure_prefetch_job_returns_indexed_live
      ⟨[⟨1, 0, JobStatus.pending, none⟩], [(0, 1)]⟩ 0 50 9).1
      ⟨1, 0, JobStatus.pending, none⟩ (by decide),
   ((ensure_prefetch_job_returns_indexed_live
      ⟨[⟨1, 0, JobStatus.pending, none⟩], [(0, 1)]⟩ 5 50 9).2 (by decide)).1⟩

/-! ### routes/items.py: _collect_matches and _filter_and_collect_items

The remote page_items call is abstracted by a pure server function of
(startIndex, limit); all other request parameters are fixed for one scan.
The ThreadPoolExecutor only prefetches pages speculatively — pages are
processed strictly in ascending offset order and each future's payload is a
pure function of its submitted (start, limit) — so the loop is deterministic
and is embedded with explicit state and fuel.  The embedding also records
the page requests submitted, in submission order, and the reason the loop
stopped. -/

/-- Page payload returned by the remote: Items and TotalRecordCount (absent
or non-integer modelled as none). -/
structure Page where
  items : List Item
  totalRecordCount : Option Int

/-- The abstracted remote: a page payload for every (startIndex, limit). -/
abbrev Server := Nat → Nat → Page

/-- Which break terminated the _collect_matches loop. -/
inductive StopReason where
  | missingIncludeTags
  | zeroLimit
  | emptyPage
  | earlyExit
  | shortPage
  | missingPage
  deriving DecidableEq, Repr

/-- Result of a scan: accumulated serialized matches, the completed_scan
flag, the submitted page requests in order, and the stop reason. -/
structure ScanResult where
  matched : List SerItem
  completed_scan : Bool
  requests : List (Nat × Nat)
  reason : StopReason
  deriving DecidableEq, Repr

/-- The match-accumulation loop of _collect_matches: append the serialized
form of every item passing the filters, stopping early once the accumulated
count reaches the target. -/
def accum_matches (inc exc : List PyStr) (q : PyStr) (target : Option Nat) :
    List Item → List SerItem → List SerItem × Bool
  | [], acc => (acc, false)
  | it :: rest, acc =>
    if item_matches_filters it inc exc q then
      let acc2 := acc ++ [serialize_item_for_response it]
      match target with
      | some t =>
        if t ≤ acc2.length then (acc2, true)
        else accum_matches inc exc q target rest acc2
      | none => accum_matches inc exc q target rest acc2
    else accum_matches inc exc q target rest acc

/-- Fixed data of one scan. -/
structure ScanCtx where
  server : Server
  include_tag_keys : List PyStr
  exclude_tag_keys : List PyStr
  excluded_types : List PyStr
  title_query_lower : PyStr
  target_count : Option Nat
  max_prefetch_pages : Nat

/-- Mutable state of the _collect_matches loop. -/
structure ScanState where
  pending : List (Nat × Nat)
  next_fetch_start : Nat
  next_process_start : Nat
  fetch_limit : Nat
  matched : List SerItem
  requests : List (Nat × Nat)

/-- The speculative scheduling loop at the top of the while body: submit
page requests at consecutive offsets (stepping by the current fetch limit)
until max_prefetch_pages are pending. -/
def schedule_fetches (ctx : ScanCtx) (st : ScanState) : ScanState :=
  let need := ctx.max_prefetch_pages - st.pending.length
  let new_reqs := (List.range need).map
    (fun i => (st.next_fetch_start + i * st.fetch_limit, st.fetch_limit))
  { st with pending := st.pending ++ new_reqs,
            requests := st.requests ++ new_reqs,
            next_fetch_start := st.next_fetch_start + need * st.fetch_limit }

/-- The while loop of _collect_matches.  A page is processed only when a
pending request exists at exactly next_process_start; next_process_start
then advances by the fetch limit current at processing time; after a page
cap is discovered the fetch limit shrinks for later requests. -/
def scan_loop (ctx : ScanCtx) : Nat → ScanState → Option ScanResult
  | 0, _ => none
  | fuel + 1, st0 =>
    let st := schedule_fetches ctx st0
    match st.pending.find? (fun p => decide (p.1 = st.next_process_start)) with
    | none => some ⟨st.matched, true, st.requests, .missingPage⟩
    | some req =>
      let payload := ctx.server req.1 req.2
      let pending2 := st.pending.filter (fun p => ¬ p.1 = st.next_process_start)
      let page_start := st.next_process_start
      let next_process2 := st.next_process_start + st.fetch_limit
      let raw_items := payload.items
      if raw_items = [] then some ⟨st.matched, true, st.requests, .emptyPage⟩
      else
        let items := if ctx.excluded_types ≠ [] then
            raw_items.filter (fun it => ¬ it.type ∈ ctx.excluded_types)
          else raw_items
        let acc := accum_matches ctx.include_tag_keys ctx.exclude_tag_keys
          ctx.title_query_lower ctx.target_count items st.matched
        let page_size := raw_items.length
        if acc.2 then some ⟨acc.1, false, st.requests, .earlyExit⟩
        else
          match payload.totalRecordCount with
          | some tc =>
            if (page_start + page_size : Int) < tc then
              let fl2 := if 0 < page_size ∧ page_size < st.fetch_limit
                then page_size else st.fetch_limit
              scan_loop ctx fuel ⟨pending2, st.next_fetch_start, next_process2,
                fl2, acc.1, st.requests⟩
            else if page_size < st.fetch_limit then
              some ⟨acc.1, true, st.requests, .shortPage⟩
            else
              scan_loop ctx fuel ⟨pending2, st.next_fetch_start, next_process2,
                st.fetch_limit, acc.1, st.requests⟩
          | none =>
            if page_size < st.fetch_limit then
              some ⟨acc.1, true, st.requests, .shortPage⟩
            else
              scan_loop ctx fuel ⟨pending2, st.next_fetch_start, next_process2,
                st.fetch_limit, acc.1, st.requests⟩

/-- Embedding of routes/items.py _collect_matches.  cache_missing is the set
_missing_include_tags would compute when the missing_include_tags argument
is None (the empty set whenever the tag cache has no usable entry).  fuel
bounds the number of processed pages; the theorems below instantiate it
above the number actually needed.  title_query is casefolded exactly as the
source does (casefold of the empty string is the empty string). -/
def collect_matches (server : Server)
    (include_tag_keys exclude_tag_keys excluded_types : List PyStr)
    (title_query : PyStr) (limit : Int) (start_index : Nat)
    (missing_include_tags : Option (List PyStr)) (cache_missing : List PyStr)
    (max_matches : Option Nat) (fuel : Nat) : Option ScanResult :=
  if include_tag_keys ≠ [] ∧ missing_include_tags.getD cache_missing ≠ [] then
    some ⟨[], true, [], .missingIncludeTags⟩
  else if limit ≤ 0 then some ⟨[], true, [], .zeroLimit⟩
  else
    let target := max_matches
    let fetch_limit := min AGGREGATE_FETCH_LIMIT
      (max ITEM_PAGE_FETCH_LIMIT (max limit.toNat (target.getD 0)))
    let page_estimate := match target with
      | some t => if t = 0 then fetch_limit else t
      | none => fetch_limit
    let page_count := max 1 ((page_estimate + fetch_limit - 1) / fetch_limit)
    let max_prefetch_pages := min 8 (max 2 page_count)
    scan_loop ⟨server, include_tag_keys, exclude_tag_keys, excluded_types,
        py_casefold title_query, target, max_prefetch_pages⟩ fuel
      ⟨[], start_index, start_index, fetch_limit, [], []⟩

/-- The fields of ItemsRequestState consumed by _filter_and_collect_items
(the connection parameters live inside the abstract server). -/
structure ItemsRequestState where
  include_tag_keys : List PyStr
  exclude_tag_keys : List PyStr
  excluded_types : List PyStr
  title_query : PyStr
  sort_descending : Bool
  start_index : Nat
  limit : Int

/-- Outcome of _filter_and_collect_items, together with the
set_prefetch_cache_entry call it makes (matches, total, complete) if any. -/
structure FilterCollectOutcome where
  paged_items : List SerItem
  total_matches : Nat
  is_complete : Bool
  prefetch_write : Option (List SerItem × Nat × Bool)
  deriving DecidableEq, Repr

/-- Embedding of routes/items.py _filter_and_collect_items: scan starting at
the request's startIndex with target startIndex+limit and fetch limit
max(limit, ITEM_PAGE_FETCH_LIMIT), sort the matches, write a prefetch cache
entry when the scan reports completion, and slice
[startIndex : startIndex+limit]. -/
def filter_and_collect_items (server : Server) (st : ItemsRequestState)
    (cache_missing : List PyStr) (fuel : Nat) : Option FilterCollectOutcome :=
  if st.limit ≤ 0 then some ⟨[], 0, true, none⟩
  else
    let max_matches := st.start_index + st.limit.toNat
    match collect_matches server st.include_tag_keys st.exclude_tag_keys
        st.excluded_types st.title_query
        (max st.limit (ITEM_PAGE_FETCH_LIMIT : Int)) st.start_index none
        cache_missing (some max_matches) fuel with
    | none => none
    | some r =>
      let sorted := sort_items_for_response r.matched st.sort_descending
      some ⟨(sorted.drop st.start_index).take st.limit.toNat, sorted.length,
        r.completed_scan,
        if r.completed_scan then some (sorted, sorted.length, true) else none⟩

/-! ### Scenarios and theorems for C1, C3 and C4 -/

/-- Item constructor for the windowed-pagination scenario. -/
def c1_item (nm : String) (tags : List String) : Item :=
  { id := pstr nm, type := pstr "Movie", name := some (pstr nm),
    tags := tags.map pstr }

/-- Five remote records: one non-matching item followed by four items
tagged Match (the repository's own windowed-pagination regression test). -/
def c1_records : List Item :=
  [ c1_item "Other 1" ["Other"], c1_item "Match 1" ["Match"],
    c1_item "Match 2" ["Match"], c1_item "Match 3" ["Match"],
    c1_item "Match 4" ["Match"] ]

/-- Honest server for c1_records: returns the requested slice and the true
record count. -/
def c1_server : Server := fun start limit =>
  ⟨(c1_records.drop start).take limit, some (c1_records.length : Int)⟩

/-- The request of the scenario: required tag key match, startIndex 1,
limit 2. -/
def c1_state : ItemsRequestState :=
  { include_tag_keys := [pstr "match"], exclude_tag_keys := [],
    excluded_types := [], title_query := [], sort_descending := false,
    start_index := 1, limit := 2 }

/-- C1 (refuted; code bug): for the filtered query over c1_records with
startIndex 1 and limit 2, the full filtered match set has N = 4 items, yet
_filter_and_collect_items reports TotalMatchCount 3 — the scan starts its
remote paging at the request's startIndex and additionally stops after
startIndex + limit accumulated matches, so the reported total is the
truncated scan count, not N.  (The repository's own test asserts
TotalMatchCount == 4 here.) -/
theorem windowed_pagination_wrong_total_match_count :
    (filter_and_collect_items c1_server c1_state [] 10).map
        (fun o => (o.paged_items.map SerItem.id, o.total_matches, o.is_complete)) =
      some ([pstr "Match 2", pstr "Match 3"], 3, false) ∧
    (c1_records.filter
        (fun it => item_matches_filters it [pstr "match"] [] [])).length = 4 :=
  ⟨rfl, rfl⟩

/-- Item for the page-cap scenario: tagged Keep. -/
def c3_item : Item := { type := pstr "Movie", tags := [pstr "Keep"] }

/-- 120 matching records (the repository's page-cap regression test). -/
def c3_records : List Item := List.replicate 120 c3_item

/-- A server that silently caps every page at 50 items regardless of the
requested limit, reporting the true total of 120 records. -/
def c3_server : Server := fun start limit =>
  ⟨(c3_records.drop start).take (min limit 50), some (120 : Int)⟩

/-- C3 (refuted; code bug): scanning c3_server with the arguments
_filter_and_collect_items passes for a limit-100 request (fetch limit 200,
startIndex 0, target 100), the scan discovers the cap of 50 on the first
page but advances its processing offset by the stale fetch limit: the
submitted requests are (0,200), (200,200) and (400,50) — the first
follow-up request repeats the original size 200 and no request ever covers
records 50..199 — and the scan ends at the empty page at offset 200 with
only 50 of the 120 matching records, reporting completed.  (The
repository's own test asserts follow-ups (50,50), (100,50) and
TotalMatchCount 120.) -/
theorem adaptive_page_cap_scan_skips_records :
    (collect_matches c3_server [pstr "keep"] [] [] [] 200 0 none []
        (some 100) 10).map
        (fun r => (r.matched.length, r.completed_scan, r.requests, r.reason)) =
      some (50, true, [(0, 200), (200, 200), (400, 50)], StopReason.emptyPage) ∧
    (c3_records.filter
        (fun it => item_matches_filters it [pstr "keep"] [] [])).length = 120 :=
  ⟨rfl, rfl⟩

/-- Untagged item for the completeness scenario. -/
def c4_plain : Item := { type := pstr "Movie" }

/-- The single matching item, tagged Rare, placed at index 255. -/
def c4_rare : Item := { type := pstr "Movie", tags := [pstr "Rare"] }

/-- 260 records whose only match sits at index 255. -/
def c4_records : List Item :=
  List.replicate 255 c4_plain ++ [c4_rare] ++ List.replicate 4 c4_plain

/-- A server capping pages at 50 items, reporting the true total of 260. -/
def c4_server : Server := fun start limit =>
  ⟨(c4_records.drop start).take (min limit 50), some (260 : Int)⟩

/-- Request with required tag key rare, startIndex 0, limit 50. -/
def c4_state : ItemsRequestState :=
  { include_tag_keys := [pstr "rare"], exclude_tag_keys := [],
    excluded_types := [], title_query := [], sort_descending := false,
    start_index := 0, limit := 50 }

/-- C4 (refuted; code bug): on c4_server the scan processes the pages at
offsets 0 and 200 (both capped at 50 items), then looks for a pending page
at the misaligned offset 250, finds none and stops with completed_scan
true — the missing-page break, not an empty or short page — although
records 50..199 and 250..259 (including the only matching record, at 255)
were never scanned; _filter_and_collect_items then writes a prefetch cache
entry with complete = true and total 0 while the true match count is 1, so
a complete entry is written without true exhaustion of the remote
listing. -/
theorem prefetch_complete_written_without_exhaustion :
    (filter_and_collect_items c4_server c4_state [] 10).map
        (fun o => (o.is_complete, o.prefetch_write, o.total_matches)) =
      some (true, some ([], 0, true), 0) ∧
    (collect_matches c4_server [pstr "rare"] [] [] [] 200 0 none []
        (some 50) 10).map
        (fun r => (r.reason, r.completed_scan, r.matched.length)) =
      some (StopReason.missingPage, true, 0) ∧
    (c4_records.filter
        (fun it => item_matches_filters it [pstr "rare"] [] [])).length = 1 :=
  ⟨rfl, rfl, rfl⟩
